import Mathlib

/-!
Verification of the gitignore-style path-filtering engine of the `amalgo`
repository (`pkg/filter/filter.go`).

The Go code compiles each pattern line into a `regexp.Regexp` via textual
substitutions (`getPatternFromLine`), collects the compiled patterns into a
`Filter` (`CompileFilterPatterns`), and evaluates a path against the ordered
pattern list with last-match-wins semantics (`MatchesPathHow`).

Embedding notes:
* Go strings are modelled as `List Char` (wrapped in `String` at the API).
* The regular expressions produced by the translation are modelled by an
  inductive `Regex` AST together with a Brzozowski-derivative matcher.
  Every expression the translation builds has the shape `^e$`, for which
  Go's unanchored `MatchString` search succeeds exactly when `e` matches the
  whole input; `goRegexpCompile` therefore strips the two anchors and stores
  the AST of `e`, and `Regex.matchString` is whole-string matching.
* `goRegexpCompile` parses the fragment of Go regexp syntax that the
  translation emits (literals, escapes, `.`, simple character classes,
  groups, alternation, `*`, `+`); expressions outside the fragment are
  rejected, which — like a Go `regexp.Compile` error — makes the line be
  skipped by `CompileFilterPatterns`.
* A Go run-time panic (the `line[0]` index on an empty string reachable in
  `getPatternFromLine`) is modelled as `Except.error ()`.
-/

/-- Regular-expression ASTs for the fragment of Go `regexp` syntax emitted by
the pattern translation.  `cls neg cs` is a character class (`[...]` or
`[^...]`); `dot` is Go's `.` (any character except a line feed). -/
inductive Regex where
  | emp : Regex
  | eps : Regex
  | chr : Char → Regex
  | cls : Bool → List Char → Regex
  | dot : Regex
  | cat : Regex → Regex → Regex
  | alt : Regex → Regex → Regex
  | star : Regex → Regex
  | plus : Regex → Regex
deriving DecidableEq, Repr

namespace Regex

/-- Whether a regex accepts the empty string. -/
def nullable : Regex → Bool
  | emp => false
  | eps => true
  | chr _ => false
  | cls _ _ => false
  | dot => false
  | cat r s => nullable r && nullable s
  | alt r s => nullable r || nullable s
  | star _ => true
  | plus r => nullable r

/-- Smart concatenation (keeps derivative terms small). -/
def mkCat : Regex → Regex → Regex
  | emp, _ => emp
  | _, emp => emp
  | eps, s => s
  | r, eps => r
  | r, s => cat r s

/-- Smart alternation (keeps derivative terms small). -/
def mkAlt : Regex → Regex → Regex
  | emp, s => s
  | r, emp => r
  | r, s => if r = s then r else alt r s

/-- Whether a character class `[cs]` / `[^cs]` accepts character `c`. -/
def clsMatches (neg : Bool) (cs : List Char) (c : Char) : Bool :=
  if neg then !(cs.contains c) else cs.contains c

/-- Brzozowski derivative of a regex with respect to one character. -/
def deriv (c : Char) : Regex → Regex
  | emp => emp
  | eps => emp
  | chr a => if a = c then eps else emp
  | cls neg cs => if clsMatches neg cs c then eps else emp
  | dot => if c = '\n' then emp else eps
  | cat r s =>
    if nullable r then mkAlt (mkCat (deriv c r) s) (deriv c s)
    else mkCat (deriv c r) s
  | alt r s => mkAlt (deriv c r) (deriv c s)
  | star r => mkCat (deriv c r) (star r)
  | plus r => mkCat (deriv c r) (star r)

/-- Whole-string matching by iterated derivatives. -/
def matchChars (r : Regex) (cs : List Char) : Bool :=
  nullable (cs.foldl (fun r c => deriv c r) r)

/-- Model of `(*regexp.Regexp).MatchString` for the compiled patterns: every
expression built by the translation is `^e$`-anchored, so Go's substring
search coincides with whole-string matching of the stored (anchor-stripped)
regex. -/
def matchString (r : Regex) (s : String) : Bool :=
  matchChars r s.data

end Regex

/-- Apply the postfix repetition operators `*` and `+` to a parsed atom. -/
def parseReps : Regex → List Char → Regex × List Char
  | r, '*' :: rest => parseReps (Regex.star r) rest
  | r, '+' :: rest => parseReps (Regex.plus r) rest
  | r, rest => (r, rest)

/-- Characters allowed as bare literals in the parsed fragment. -/
def bareChar (c : Char) : Bool :=
  !(c = '(' || c = ')' || c = '[' || c = ']' || c = '\\' || c = '.' ||
    c = '*' || c = '+' || c = '?' || c = '|' || c = '^' || c = '$' ||
    c = '\x7b' || c = '\x7d')

/-- Collect the member characters of a character class up to `]`.
Ranges, escapes and nested brackets are outside the emitted fragment and
rejected. -/
def parseClsChars : List Char → Option (List Char × List Char)
  | [] => none
  | c :: rest =>
    if c = ']' then some ([], rest)
    else if c = '\\' || c = '-' || c = '[' then none
    else match parseClsChars rest with
      | some (cs, rem) => some (c :: cs, rem)
      | none => none

/-- Parse a character class after the opening `[`. -/
def parseCls (cs : List Char) : Option (Regex × List Char) :=
  let (neg, cs) := match cs with
    | '^' :: rest => (true, rest)
    | _ => (false, cs)
  match parseClsChars cs with
  | some ([], _) => none
  | some (mem, rest) => some (Regex.cls neg mem, rest)
  | none => none

mutual

/-- Parse an alternation `seq ('|' seq)*`. -/
def parseAlt : Nat → List Char → Option (Regex × List Char)
  | 0, _ => none
  | fuel + 1, cs =>
    match parseSeq fuel cs with
    | none => none
    | some (r, rest) =>
      match rest with
      | '|' :: rest2 =>
        match parseAlt fuel rest2 with
        | some (r2, rest3) => some (Regex.alt r r2, rest3)
        | none => none
      | _ => some (r, rest)

/-- Parse a (possibly empty) sequence of repetition factors. -/
def parseSeq : Nat → List Char → Option (Regex × List Char)
  | 0, _ => none
  | fuel + 1, cs =>
    match cs with
    | [] => some (Regex.eps, [])
    | '|' :: _ => some (Regex.eps, cs)
    | ')' :: _ => some (Regex.eps, cs)
    | _ =>
      match parseAtom fuel cs with
      | none => none
      | some (r, rest) =>
        let (r, rest) := parseReps r rest
        match parseSeq fuel rest with
        | none => none
        | some (r2, rest2) => some (Regex.cat r r2, rest2)

/-- Parse one atom: a group, a class, an escaped literal, `.`, or a bare
literal character. -/
def parseAtom : Nat → List Char → Option (Regex × List Char)
  | 0, _ => none
  | fuel + 1, cs =>
    match cs with
    | [] => none
    | '(' :: rest =>
      match parseAlt fuel rest with
      | some (r, ')' :: rest2) => some (r, rest2)
      | _ => none
    | '[' :: rest => parseCls rest
    | '\\' :: c :: rest =>
      if c.isAlphanum then none else some (Regex.chr c, rest)
    | '.' :: rest => some (Regex.dot, rest)
    | c :: rest => if bareChar c then some (Regex.chr c, rest) else none

end

/-- Parse a complete regex (no trailing input). -/
def parseRegex (cs : List Char) : Option Regex :=
  match parseAlt (4 * cs.length + 8) cs with
  | some (r, []) => some r
  | _ => none

/-- Model of `regexp.Compile` on the expressions built by
`getPatternFromLine`: they always have the form `^e$`; the anchors are
stripped and `e` parsed.  `none` models a compile error (the caller skips the
pattern, mirroring the `compiledPattern != nil` guard in Go). -/
def goRegexpCompile (expr : List Char) : Option Regex :=
  match expr with
  | '^' :: rest =>
    match rest.getLast? with
    | some '$' => parseRegex rest.dropLast
    | _ => none
  | _ => none

/-! ### String helpers modelling the Go `strings` functions used -/

/-- Model of `strings.TrimRight(s, "\r")`: drop trailing carriage returns. -/
def trimRightCR (s : List Char) : List Char :=
  (s.reverse.dropWhile (fun c => c = '\r')).reverse

/-- White-space predicate of `unicode.IsSpace` (the cases relevant to pattern
lines: ASCII spacing characters plus NEL and NBSP). -/
def isGoSpace (c : Char) : Bool :=
  c = ' ' || c = '\t' || c = '\n' || c = '\x0b' || c = '\x0c' || c = '\r' ||
  c = '\x85' || c = '\xa0'

/-- Model of `strings.TrimSpace`. -/
def trimSpace (s : List Char) : List Char :=
  ((s.dropWhile isGoSpace).reverse.dropWhile isGoSpace).reverse

/-- The trimming `CompileFilterPatterns` applies to each raw line before
`getPatternFromLine`: `strings.TrimRight(p, "\r")` then `strings.TrimSpace`. -/
def goTrimLine (s : String) : String :=
  String.mk (trimSpace (trimRightCR s.data))

/-- Replace every occurrence of the literal pattern `p :: ps` by `rep`,
scanning left to right without rescanning replacements — the behaviour of
`regexp.ReplaceAllString` and `strings.Replace(s, old, new, -1)` for the
literal patterns used by the translation.  The `fuel` argument only makes the
recursion structural; `replaceAll` supplies the input length, which is always
enough since every step consumes at least one character. -/
def replaceAllFuel (p : Char) (ps rep : List Char) : Nat → List Char → List Char
  | _, [] => []
  | 0, s => s
  | fuel + 1, c :: cs =>
    if c = p && ps.isPrefixOf cs then
      rep ++ replaceAllFuel p ps rep fuel (cs.drop ps.length)
    else
      c :: replaceAllFuel p ps rep fuel cs

/-- `replaceAllFuel` with adequate fuel. -/
def replaceAll (p : Char) (ps rep : List Char) (s : List Char) : List Char :=
  replaceAllFuel p ps rep s.length s

/-- Model of `strings.Split(s, "\n")`. -/
def splitOnNl (s : String) : List String :=
  go [] s.data
where
  go (acc : List Char) : List Char → List String
    | [] => [String.mk acc.reverse]
    | c :: cs =>
      if c = '\n' then String.mk acc.reverse :: go [] cs
      else go (c :: acc) cs

/-! ### The pattern-to-regex translation (`getPatternFromLine`) -/

/-- The leading-`!` stripping loop of `getPatternFromLine`.  The Go loop
condition evaluates `line[0]`, which panics (index out of range) when the
line has been consumed entirely — reached exactly when the line consists
solely of `!` characters.  The panic is modelled as `Except.error ()`. -/
def stripBangs (neg : Bool) : List Char → Except Unit (Bool × List Char)
  | [] => Except.error ()
  | c :: cs =>
    if c = '!' then stripBangs (!neg) cs
    else Except.ok (neg, c :: cs)

/-- The "ignore a prefix of escaped `#` or `!`" step: the Go code drops the
first character when the expression starts with `#` or `!` (the regexp
`^(\#|\!)` matches those literal characters). -/
def unescapeLead : List Char → List Char
  | c :: cs => if c = '#' || c = '!' then cs else c :: cs
  | [] => []

/-- Escape literal dots: every `.` becomes `\.`. -/
def escapeDots (s : List Char) : List Char :=
  replaceAll '.' [] ['\\', '.'] s

/-- The wildcard-translation pipeline applied to the expression copy after
the leading-escape step, mirroring the Go statement order:
dots, leading `/**/`, `/**/`, `**/`, `/**`, `\*`, `*`, `?`, magic-star
restoration. -/
def translateCore (e : List Char) : List Char :=
  let e := escapeDots e
  let e := if ['/', '*', '*', '/'].isPrefixOf e then e.drop 1 else e
  let e := replaceAll '/' ['*', '*', '/'] "(/|/.+/)".data e
  let e := replaceAll '*' ['*', '/'] ("(|." ++ "#$~" ++ "/)").data e
  let e := replaceAll '/' ['*', '*'] ("(|/." ++ "#$~" ++ ")").data e
  let e := replaceAll '\\' ['*'] ("\\" ++ "#$~").data e
  let e := replaceAll '*' [] "([^/]*)".data e
  let e := replaceAll '?' [] "[^/]".data e
  let e := replaceAll '#' ['$', '~'] ['*'] e
  e

/-- The end-anchoring step: a pattern ending in `/` gets `(|.*)$`, any other
pattern gets `(|/.*)$`.  `line` is the negation-stripped pattern text. -/
def addTail (line e : List Char) : List Char :=
  if ['/'].isSuffixOf line then e ++ "(|.*)$".data
  else e ++ "(|/.*)$".data

/-- The start-anchoring step (the Go `switch`): a pattern starting with `/`
gets `^(|/)` in place of its first expression character, a pattern starting
with `**/` gets the depth-skipping prefix `^(|.*/)`, and every other (bare)
pattern is anchored strictly with `^`. -/
def addAnchor (line e : List Char) : List Char :=
  if ['/'].isPrefixOf line then "^(|/)".data ++ e.drop 1
  else if ['*', '*', '/'].isPrefixOf line then "^(|.*/)".data ++ e
  else '^' :: e

/-- The full expression built by `getPatternFromLine` for a negation-stripped
pattern `line`. -/
def buildExpr (line : List Char) : List Char :=
  addAnchor line (addTail line (translateCore (unescapeLead line)))

/-- Model of `getPatternFromLine`: `Except.error ()` is a Go panic,
`Except.ok (none, _)` a skipped line (comment, blank, or regexp compile
failure — the caller checks `compiledPattern != nil`). -/
def getPatternFromLine (line : String) : Except Unit (Option Regex × Bool) :=
  if List.isPrefixOf ['#'] line.data then Except.ok (none, false)
  else if line.data = [] then Except.ok (none, false)
  else
    match stripBangs false line.data with
    | Except.error _ => Except.error ()
    | Except.ok (neg, rest) => Except.ok (goRegexpCompile (buildExpr rest), neg)

/-! ### The compiled pattern list and its evaluation -/

namespace Amalgo

set_option linter.dupNamespace false

/-- Model of the Go `Pattern` struct: compiled matcher, negation flag,
1-based line number, and the trimmed original line text. -/
structure Pattern where
  Pattern : Regex
  Negate : Bool
  LineNo : Nat
  Line : String
deriving DecidableEq, Repr

/-- Model of the Go `Filter` struct: the ordered pattern list. -/
structure Filter where
  patterns : List Pattern
deriving DecidableEq, Repr

/-- Model of `filepath.ToSlash`: on a platform whose separator is already
`/` this is the identity. -/
def filepathToSlash (p : String) : String := p

/-- One iteration of the `MatchesPathHow` loop: the state is the running
`(matchesPath, matchingPattern)` pair. -/
def matchStep (path : String) (st : Bool × Option Pattern) (pattern : Pattern) :
    Bool × Option Pattern :=
  if pattern.Pattern.matchString path then
    if !pattern.Negate then (true, some pattern)
    else if st.1 then (false, some pattern)
    else st
  else st

/-- Model of `(*Filter).MatchesPathHow`. -/
def Filter.MatchesPathHow (f : Filter) (path : String) : Bool × Option Pattern :=
  let path := filepathToSlash path
  f.patterns.foldl (matchStep path) (false, none)

/-- Model of `(*Filter).MatchesPath`. -/
def Filter.MatchesPath (f : Filter) (path : String) : Bool :=
  (f.MatchesPathHow path).1

/-- Model of `strings.CutPrefix(s, "!")` combined with the re-prefixing in
`NegateAll`: drop a leading `!` if present, otherwise add one. -/
def toggleBang (s : String) : String :=
  match s.data with
  | '!' :: rest => String.mk rest
  | _ => String.mk ('!' :: s.data)

/-- Model of `(*Filter).NegateAll`. -/
def Filter.NegateAll (f : Filter) : Filter :=
  ⟨f.patterns.map (fun p =>
    { p with Negate := !p.Negate, Line := toggleBang p.Line })⟩

/-- Model of `(*Filter).MergeWithoutPrecedence`. -/
def Filter.MergeWithoutPrecedence (f other : Filter) : Filter :=
  ⟨other.patterns ++ f.patterns⟩

/-- Model of `(*Filter).MergeWithPrecedence`. -/
def Filter.MergeWithPrecedence (f other : Filter) : Filter :=
  ⟨f.patterns ++ other.patterns⟩

/-- The compilation loop of `CompileFilterPatterns`, carrying the 1-based
index `i + 1` that becomes `LineNo`. -/
def compileAux : Nat → List String → Except Unit (List Pattern)
  | _, [] => Except.ok []
  | i, p :: ps =>
    let t := goTrimLine p
    match getPatternFromLine t with
    | Except.error _ => Except.error ()
    | Except.ok (none, _) => compileAux (i + 1) ps
    | Except.ok (some r, neg) =>
      (compileAux (i + 1) ps).map (fun rest => ⟨r, neg, i, t⟩ :: rest)

/-- Model of `CompileFilterPatterns` (a Go panic surfaces as
`Except.error ()`). -/
def CompileFilterPatterns (patterns : List String) : Except Unit Filter :=
  (compileAux 1 patterns).map Filter.mk

/-- Outcomes of the file-based compilers: a failed `os.ReadFile` (the Go
error return) or a panic raised while compiling the lines. -/
inductive CompileOutcome where
  | fileError : CompileOutcome
  | panicked : CompileOutcome
deriving DecidableEq, Repr

/-- Model of `CompileFilterPatternFile`; the file system is an environment
mapping a path to its content, `none` meaning the read fails. -/
def CompileFilterPatternFile (fs : String → Option String) (path : String) :
    Except CompileOutcome Filter :=
  match fs path with
  | none => Except.error CompileOutcome.fileError
  | some bs =>
    match CompileFilterPatterns (splitOnNl bs) with
    | Except.error _ => Except.error CompileOutcome.panicked
    | Except.ok f => Except.ok f

/-- Model of `CompileFilterPatternFileAndLines`: the extra lines are appended
after the file's lines before compiling. -/
def CompileFilterPatternFileAndLines (fs : String → Option String)
    (path : String) (lines : List String) : Except CompileOutcome Filter :=
  match fs path with
  | none => Except.error CompileOutcome.fileError
  | some bs =>
    match CompileFilterPatterns (splitOnNl bs ++ lines) with
    | Except.error _ => Except.error CompileOutcome.panicked
    | Except.ok f => Except.ok f

namespace Amalgo

/-! ### Helper lemmas -/

/-- Characters of a `replaceAllFuel` result come from the replacement or the
input. -/
lemma mem_replaceAllFuel (p : Char) (ps rep : List Char) (c : Char) :
    ∀ (fuel : Nat) (s : List Char),
      c ∈ replaceAllFuel p ps rep fuel s → c ∈ rep ∨ c ∈ s := by
  intro fuel
  induction fuel with
  | zero =>
    intro s h
    cases s with
    | nil => simp [replaceAllFuel] at h
    | cons a as => exact Or.inr (by simpa [replaceAllFuel] using h)
  | succ fuel ih =>
    intro s h
    cases s with
    | nil => simp [replaceAllFuel] at h
    | cons a as =>
      rw [replaceAllFuel] at h
      by_cases hc : (decide (a = p) && ps.isPrefixOf as) = true
      · rw [if_pos hc] at h
        rcases List.mem_append.mp h with h | h
        · exact Or.inl h
        · rcases ih _ h with h | h
          · exact Or.inl h
          · exact Or.inr (List.mem_cons_of_mem _ (List.drop_subset _ _ h))
      · rw [if_neg hc] at h
        rcases List.mem_cons.mp h with h | h
        · exact Or.inr (h ▸ List.mem_cons_self _ _)
        · rcases ih _ h with h | h
          · exact Or.inl h
          · exact Or.inr (List.mem_cons_of_mem _ h)

/-- Characters of a `replaceAll` result come from the replacement or the
input. -/
lemma mem_replaceAll (p : Char) (ps rep : List Char) (c : Char) (s : List Char) :
    c ∈ replaceAll p ps rep s → c ∈ rep ∨ c ∈ s :=
  mem_replaceAllFuel p ps rep c s.length s

/-- With adequate fuel, replacing every occurrence of a single character
removes it entirely when the replacement does not reintroduce it. -/
lemma replaceAllFuel_single_not_mem (p : Char) (rep : List Char) (hrep : p ∉ rep) :
    ∀ (s : List Char) (fuel : Nat), s.length ≤ fuel →
      p ∉ replaceAllFuel p [] rep fuel s := by
  intro s
  induction s with
  | nil => intro fuel _; cases fuel <;> simp [replaceAllFuel]
  | cons a as ih =>
    intro fuel hlen
    cases fuel with
    | zero => simp at hlen
    | succ fuel =>
      have hlen2 : as.length ≤ fuel := by simp at hlen; omega
      rw [replaceAllFuel]
      by_cases ha : a = p
      · rw [if_pos (by simp [ha, List.isPrefixOf])]
        simp only [List.drop_zero, List.mem_append]
        rintro (h | h)
        · exact hrep h
        · exact ih fuel hlen2 h
      · rw [if_neg (by simp [ha])]
        intro h
        rcases List.mem_cons.mp h with h | h
        · exact ha h.symm
        · exact ih fuel hlen2 h

/-- Replacing every occurrence of a single character removes it entirely when
the replacement does not reintroduce it. -/
lemma replaceAll_single_not_mem (p : Char) (rep : List Char) (hrep : p ∉ rep)
    (s : List Char) : p ∉ replaceAll p [] rep s :=
  replaceAllFuel_single_not_mem p rep hrep s s.length le_rfl

/-- The translation pipeline never leaves a `?` in the expression: the `?`
wildcard step replaces every occurrence by `[^/]` and no later step
reintroduces one. -/
lemma qmark_not_mem_translateCore (e : List Char) : '?' ∉ translateCore e := by
  simp only [translateCore]
  intro h
  rcases mem_replaceAll _ _ _ _ _ h with h | h
  · simp at h
  · exact replaceAll_single_not_mem '?' _ (by decide) _ h

/-- Neither anchoring step introduces a `?`. -/
lemma qmark_not_mem_buildExpr (B : List Char) : '?' ∉ buildExpr B := by
  have hcore := qmark_not_mem_translateCore (unescapeLead B)
  have htail : '?' ∉ addTail B (translateCore (unescapeLead B)) := by
    rw [addTail]
    by_cases hs : List.isSuffixOf ['/'] B = true
    · rw [if_pos hs]
      simp only [List.mem_append]
      rintro (h | h)
      · exact hcore h
      · simp at h
    · rw [if_neg hs]
      simp only [List.mem_append]
      rintro (h | h)
      · exact hcore h
      · simp at h
  rw [buildExpr, addAnchor]
  by_cases h1 : List.isPrefixOf ['/'] B = true
  · rw [if_pos h1]
    simp only [List.mem_append]
    rintro (h | h)
    · simp at h
    · exact htail (List.drop_subset _ _ h)
  · rw [if_neg h1]
    by_cases h2 : List.isPrefixOf ['*', '*', '/'] B = true
    · rw [if_pos h2]
      simp only [List.mem_append]
      rintro (h | h)
      · simp at h
      · exact htail h
    · rw [if_neg h2]
      intro h
      rcases List.mem_cons.mp h with h | h
      · simp at h
      · exact htail h

/-- The last pattern in the fold decides the verdict whenever its matcher
matches the path: a matching non-negated pattern forces `true`, a matching
negated one forces `false`. -/
lemma foldl_matchStep_append_last (path : String) (st : Bool × Option Pattern)
    (ps : List Pattern) (pat : Pattern)
    (h : pat.Pattern.matchString path = true) :
    ((ps ++ [pat]).foldl (matchStep path) st).1 = !pat.Negate := by
  rw [List.foldl_append, List.foldl_cons, List.foldl_nil]
  set st' := ps.foldl (matchStep path) st
  unfold matchStep
  rw [if_pos h]
  cases hn : pat.Negate with
  | false => simp
  | true =>
    simp only [Bool.not_true]
    cases h1 : st'.1 with
    | false => simp [h1]
    | true => simp [h1]

/-- Shape of a successful compilation of `P ++ [X]` when `X` is a
non-skipped line: the compiled list ends with `X`'s pattern, whose
`LineNo` is `X`'s position in the batch. -/
lemma compileAux_append (X : String) (rx : Regex) (neg : Bool)
    (hX : getPatternFromLine (goTrimLine X) = Except.ok (some rx, neg)) :
    ∀ (P : List String) (i : Nat) (l : List Pattern),
      compileAux i (P ++ [X]) = Except.ok l →
      ∃ l', l = l' ++ [⟨rx, neg, i + P.length, goTrimLine X⟩] := by
  intro P
  induction P with
  | nil =>
    intro i l h
    rw [List.nil_append] at h
    simp only [compileAux, hX, Except.map, Except.ok.injEq] at h
    exact ⟨[], by simpa using h.symm⟩
  | cons p P ih =>
    intro i l h
    rw [List.cons_append] at h
    simp only [compileAux] at h
    split at h
    · exact absurd h (by simp)
    · rcases ih (i + 1) l h with ⟨l', hl⟩
      exact ⟨l', by simpa [Nat.add_assoc, Nat.add_comm 1 P.length] using hl⟩
    · rename_i r2 b2 heq2
      rcases htl : compileAux (i + 1) (P ++ [X]) with _ | l0
      · rw [htl] at h
        exact absurd h (by simp [Except.map])
      · rw [htl] at h
        simp only [Except.map, Except.ok.injEq] at h
        rcases ih (i + 1) l0 htl with ⟨l', hl⟩
        subst h
        rw [hl]
        have harith : i + 1 + P.length = i + (P.length + 1) := by omega
        simp only [List.length_cons, harith]
        exact ⟨⟨r2, b2, i, goTrimLine p⟩ :: l', by simp⟩

/-- Appending a compiled line to a pattern batch makes its polarity the
verdict for every path its matcher accepts. -/
lemma matchesPath_compile_append (P : List String) (X p : String) (rx : Regex)
    (neg : Bool) (f : Filter)
    (hX : getPatternFromLine (goTrimLine X) = Except.ok (some rx, neg))
    (hm : rx.matchString (filepathToSlash p) = true)
    (hc : CompileFilterPatterns (P ++ [X]) = Except.ok f) :
    f.MatchesPath p = !neg := by
  rcases hl : compileAux 1 (P ++ [X]) with _ | l
  · rw [CompileFilterPatterns, hl] at hc
    exact absurd hc (by simp [Except.map])
  · rw [CompileFilterPatterns, hl] at hc
    simp only [Except.map, Except.ok.injEq] at hc
    rcases compileAux_append X rx neg hX P 1 l hl with ⟨l', hsplit⟩
    rw [← hc]
    show (l.foldl (matchStep (filepathToSlash p)) (false, none)).1 = !neg
    rw [hsplit]
    exact foldl_matchStep_append_last _ _ _ _ hm

/-- A fold in which every matching pattern is negated never leaves the
initial `(false, d)` state: the negated branch only acts when the running
flag is `true`. -/
lemma foldl_matchStep_all_negated (path : String) (d : Option Pattern) :
    ∀ (ps : List Pattern),
      (∀ pat ∈ ps, pat.Pattern.matchString path = true → pat.Negate = true) →
      ps.foldl (matchStep path) (false, d) = (false, d) := by
  intro ps
  induction ps with
  | nil => intro _; rfl
  | cons p ps ih =>
    intro h
    rw [List.foldl_cons]
    have hstep : matchStep path (false, d) p = (false, d) := by
      unfold matchStep
      by_cases hm : p.Pattern.matchString path = true
      · rw [if_pos hm, h p (List.mem_cons_self _ _) hm]
        simp
      · rw [if_neg hm]
    rw [hstep]
    exact ih (fun pat hp hm => h pat (List.mem_cons_of_mem _ hp) hm)

/-- Every pattern produced by the compilation loop carries as `LineNo` its
1-based position in the full input batch (counting skipped lines), and the
trimmed line at that position compiles to exactly that pattern. -/
lemma compileAux_lineNo :
    ∀ (lines : List String) (i : Nat) (l : List Pattern),
      compileAux i lines = Except.ok l →
      ∀ pat ∈ l, i ≤ pat.LineNo ∧ pat.LineNo < i + lines.length ∧
        (lines[pat.LineNo - i]?).map goTrimLine = some pat.Line ∧
        getPatternFromLine pat.Line = Except.ok (some pat.Pattern, pat.Negate) := by
  intro lines
  induction lines with
  | nil =>
    intro i l h pat hpat
    simp only [compileAux, Except.ok.injEq] at h
    rw [← h] at hpat
    simp at hpat
  | cons p ps ih =>
    intro i l h pat hpat
    simp only [compileAux] at h
    split at h
    · exact absurd h (by simp)
    · rcases ih (i + 1) l h pat hpat with ⟨h1, h2, h3, h4⟩
      have hge : i + 1 ≤ pat.LineNo := h1
      refine ⟨by omega, by simp only [List.length_cons]; omega, ?_, h4⟩
      have hidx : pat.LineNo - i = (pat.LineNo - (i + 1)) + 1 := by omega
      rw [hidx, List.getElem?_cons_succ]
      exact h3
    · rename_i r2 b2 heq2
      rcases htl : compileAux (i + 1) ps with _ | l0
      · rw [htl] at h
        exact absurd h (by simp [Except.map])
      · rw [htl] at h
        simp only [Except.map, Except.ok.injEq] at h
        subst h
        rcases List.mem_cons.mp hpat with hp | hp
        · subst hp
          refine ⟨le_rfl, by simp only [List.length_cons]; omega, ?_, by simpa using heq2⟩
          simp
        · rcases ih (i + 1) l0 htl pat hp with ⟨h1, h2, h3, h4⟩
          refine ⟨by omega, by simp only [List.length_cons]; omega, ?_, h4⟩
          have hidx : pat.LineNo - i = (pat.LineNo - (i + 1)) + 1 := by omega
          rw [hidx, List.getElem?_cons_succ]
          exact h3

/-- The Boolean verdict of the fold depends only on each pattern's matcher
and negation flag, not on its line text, line number, or the recorded
decisive pattern. -/
lemma foldl_matchStep_fst_congr (path : String) :
    ∀ (ps qs : List Pattern),
      ps.map (fun p => (p.Pattern, p.Negate)) = qs.map (fun p => (p.Pattern, p.Negate)) →
      ∀ (b : Bool) (d d' : Option Pattern),
        (ps.foldl (matchStep path) (b, d)).1 = (qs.foldl (matchStep path) (b, d')).1 := by
  intro ps
  induction ps with
  | nil =>
    intro qs h b d d'
    cases qs with
    | nil => rfl
    | cons q qs => simp at h
  | cons p ps ih =>
    intro qs h b d d'
    cases qs with
    | nil => simp at h
    | cons q qs =>
      simp only [List.map_cons, List.cons.injEq, Prod.mk.injEq] at h
      obtain ⟨⟨hpat, hneg⟩, htail⟩ := h
      rw [List.foldl_cons, List.foldl_cons]
      have hfst : (matchStep path (b, d) p).1 = (matchStep path (b, d') q).1 := by
        simp only [matchStep, hpat, hneg]
        by_cases hm : q.Pattern.matchString path = true
        · rw [if_pos hm, if_pos hm]
          by_cases hn : q.Negate = true
          · simp only [hn, Bool.not_true, Bool.false_eq_true, if_false]
            cases b <;> simp
          · simp only [Bool.not_eq_true] at hn
            simp [hn]
        · rw [if_neg hm, if_neg hm]
      rcases hs : matchStep path (b, d) p with ⟨b1, d1⟩
      rcases hs2 : matchStep path (b, d') q with ⟨b2, d2⟩
      rw [hs, hs2] at hfst
      simp only at hfst
      subst hfst
      exact ih qs htail b1 d1 d2

/-! ### The claims -/

/-- Compiled matcher of the pattern line `a` (regex `^a(|/.*)$`, anchors
stripped), used by concrete witnesses. -/
def regA : Regex :=
  Regex.cat (Regex.chr 'a')
    (Regex.cat
      (Regex.alt Regex.eps
        (Regex.cat (Regex.chr '/') (Regex.cat (Regex.star Regex.dot) Regex.eps)))
      Regex.eps)

/-- Compiled matcher of the pattern line `x` (regex `^x(|/.*)$`, anchors
stripped), used by concrete witnesses. -/
def regX : Regex :=
  Regex.cat (Regex.chr 'x')
    (Regex.cat
      (Regex.alt Regex.eps
        (Regex.cat (Regex.chr '/') (Regex.cat (Regex.star Regex.dot) Regex.eps)))
      Regex.eps)

/-- Compiled matcher of the pattern line `*.txt` (regex
`^([^/]*)\.txt(|/.*)$`, anchors stripped), used by concrete witnesses. -/
def regTxt : Regex :=
  Regex.cat (Regex.cat (Regex.star (Regex.cls true ['/'])) Regex.eps)
    (Regex.cat (Regex.chr '.')
      (Regex.cat (Regex.chr 't')
        (Regex.cat (Regex.chr 'x')
          (Regex.cat (Regex.chr 't')
            (Regex.cat
              (Regex.alt Regex.eps
                (Regex.cat (Regex.chr '/')
                  (Regex.cat (Regex.star Regex.dot) Regex.eps)))
              Regex.eps)))))

/-- Claim C1 (last-match-wins): for every pattern list `P`, non-skipped
pattern line `X` and path `p` whose normalized form `X`'s compiled matcher
accepts, the filter compiled from `P` with `X` appended returns `X`'s
polarity for `p` — `true` when `X` is not negated, `false` when it is —
regardless of what `P` alone computes. -/
theorem claim_C1_last_match_wins (P : List String) (X p : String) (rx : Regex)
    (neg : Bool) (f : Filter)
    (hX : getPatternFromLine (goTrimLine X) = Except.ok (some rx, neg))
    (hm : rx.matchString (filepathToSlash p) = true)
    (hc : CompileFilterPatterns (P ++ [X]) = Except.ok f) :
    f.MatchesPath p = !neg :=
  matchesPath_compile_append P X p rx neg f hX hm hc

/-- Witness for C1: appending the line `a` after a comment-only list makes
the verdict for path `a` equal to the appended line's polarity. -/
theorem claim_C1_witness :
    Filter.MatchesPath ⟨[⟨regA, false, 2, "a"⟩]⟩ "a" = !false :=
  claim_C1_last_match_wins ["# c"] "a" "a" regA false ⟨[⟨regA, false, 2, "a"⟩]⟩
    rfl rfl rfl

/-- Claim C2 (negation no-op on unmatched): when every pattern of a filter
that matches a path is negated, `MatchesPathHow` returns `(false, nil)`; and
a negated matching pattern seen while the running flag is `false` changes
neither the verdict nor the recorded decisive pattern. -/
theorem claim_C2_negation_noop_on_unmatched (f : Filter) (p : String)
    (h : ∀ pat ∈ f.patterns,
      pat.Pattern.matchString (filepathToSlash p) = true → pat.Negate = true) :
    f.MatchesPathHow p = (false, none) ∧
    ∀ (pat : Pattern) (dp : Option Pattern), pat.Negate = true →
      pat.Pattern.matchString (filepathToSlash p) = true →
      matchStep (filepathToSlash p) (false, dp) pat = (false, dp) := by
  constructor
  · show f.patterns.foldl (matchStep (filepathToSlash p)) (false, none) = (false, none)
    exact foldl_matchStep_all_negated (filepathToSlash p) none f.patterns h
  · intro pat dp hn hm
    unfold matchStep
    rw [if_pos hm, hn]
    simp

/-- Witness for C2: a filter whose only pattern is the negated line `!a`
yields `(false, none)` for path `a`, and the step function leaves an earlier
decisive pattern untouched. -/
theorem claim_C2_witness :
    Filter.MatchesPathHow ⟨[⟨regA, true, 1, "!a"⟩]⟩ "a" = (false, none) ∧
    matchStep (filepathToSlash "a") (false, some ⟨regX, false, 7, "x"⟩)
      ⟨regA, true, 1, "!a"⟩ = (false, some ⟨regX, false, 7, "x"⟩) := by
  constructor
  · exact (claim_C2_negation_noop_on_unmatched ⟨[⟨regA, true, 1, "!a"⟩]⟩ "a"
      (by intro pat hp hm; rw [List.mem_singleton] at hp; subst hp; rfl)).1
  · exact (claim_C2_negation_noop_on_unmatched ⟨[⟨regA, true, 1, "!a"⟩]⟩ "a"
      (by intro pat hp hm; rw [List.mem_singleton] at hp; subst hp; rfl)).2
      ⟨regA, true, 1, "!a"⟩ (some ⟨regX, false, 7, "x"⟩) rfl rfl

/-- Claim C3: the claim says compilation is total, but the `!`-stripping
loop of `getPatternFromLine` indexes `line[0]` after consuming the whole
line, so a line consisting solely of `!` characters makes the Go code panic
with an index-out-of-range error (modelled as `Except.error ()`), and
`CompileFilterPatterns` propagates the panic. -/
theorem claim_C3_bang_only_line_panics :
    getPatternFromLine "!" = Except.error () ∧
    getPatternFromLine "!!!" = Except.error () ∧
    CompileFilterPatterns ["!"] = Except.error () ∧
    CompileFilterPatterns ["*.txt", "!!"] = Except.error () :=
  ⟨rfl, rfl, rfl, rfl⟩

/-- Claim C4 (bare-pattern root anchoring): a pattern with no leading `/`
and no leading `**/` is anchored strictly with `^` — no directory-skipping
alternative is prepended — so `*.go` matches `main.go` but not
`internal/util.go`. -/
theorem claim_C4_bare_pattern_root_anchoring (B : List Char)
    (h1 : List.isPrefixOf ['/'] B = false)
    (h2 : List.isPrefixOf ['*', '*', '/'] B = false) :
    buildExpr B = '^' :: addTail B (translateCore (unescapeLead B)) ∧
    (CompileFilterPatterns ["*.go"]).map (fun f => f.MatchesPath "main.go") =
      Except.ok true ∧
    (CompileFilterPatterns ["*.go"]).map (fun f => f.MatchesPath "internal/util.go") =
      Except.ok false := by
  refine ⟨?_, by rfl, by rfl⟩
  rw [buildExpr, addAnchor, if_neg (by simp [h1]), if_neg (by simp [h2])]

/-- Witness for C4 at the bare pattern `*.go`. -/
theorem claim_C4_witness :
    buildExpr "*.go".data =
      '^' :: addTail "*.go".data (translateCore (unescapeLead "*.go".data)) ∧
    (CompileFilterPatterns ["*.go"]).map (fun f => f.MatchesPath "main.go") =
      Except.ok true ∧
    (CompileFilterPatterns ["*.go"]).map (fun f => f.MatchesPath "internal/util.go") =
      Except.ok false :=
  claim_C4_bare_pattern_root_anchoring "*.go".data rfl rfl

/-- Counterexample to C5: the claim says `src/**/test.txt` does not match
`src/test.txt` (zero intervening directories), but the compiled filter
accepts that path — interior `/**/` becomes `(/|/.+/)`, whose first
alternative is a single `/`. -/
theorem claim_C5_counterexample :
    (CompileFilterPatterns ["src/**/test.txt"]).map
      (fun f => f.MatchesPath "src/test.txt") = Except.ok true := by rfl

/-- Amended C5: interior `/**/` becomes `(/|/.+/)` — a single `/` (zero
intervening segments) or one-or-more segments — so `src/**/test.txt`
matches both `src/deeply/nested/test.txt` and `src/test.txt`. -/
theorem claim_C5_amended :
    buildExpr "src/**/test.txt".data = "^src(/|/.+/)test\\.txt(|/.*)$".data ∧
    (CompileFilterPatterns ["src/**/test.txt"]).map
      (fun f => f.MatchesPath "src/deeply/nested/test.txt") = Except.ok true ∧
    (CompileFilterPatterns ["src/**/test.txt"]).map
      (fun f => f.MatchesPath "src/test.txt") = Except.ok true :=
  ⟨rfl, rfl, rfl⟩

/-- Counterexample to C6: compiling `["", "# comment", "*.txt"]` yields one
pattern whose `LineNo` is 3 — its position in the full batch — not 1 as the
claim's non-skipped numbering would give. -/
theorem claim_C6_counterexample :
    (CompileFilterPatterns ["", "# comment", "*.txt"]).map
      (fun f => f.patterns.map Pattern.LineNo) = Except.ok [3] := by rfl

/-- Amended C6: each produced pattern's `LineNo` is its 1-based position in
the full input batch, counting skipped lines: the line at that position,
trimmed, is the pattern's `Line`, and it compiles to exactly this pattern. -/
theorem claim_C6_amended (lines : List String) (f : Filter)
    (hc : CompileFilterPatterns lines = Except.ok f) :
    ∀ pat ∈ f.patterns, 1 ≤ pat.LineNo ∧ pat.LineNo ≤ lines.length ∧
      (lines[pat.LineNo - 1]?).map goTrimLine = some pat.Line ∧
      getPatternFromLine pat.Line = Except.ok (some pat.Pattern, pat.Negate) := by
  intro pat hpat
  rcases hl : compileAux 1 lines with _ | l
  · rw [CompileFilterPatterns, hl] at hc
    exact absurd hc (by simp [Except.map])
  · rw [CompileFilterPatterns, hl] at hc
    simp only [Except.map, Except.ok.injEq] at hc
    subst hc
    rcases compileAux_lineNo lines 1 l hl pat hpat with ⟨h1, h2, h3, h4⟩
    exact ⟨h1, by omega, h3, h4⟩

/-- Witness for C6 (amended) at the batch `["", "# comment", "*.txt"]`. -/
theorem claim_C6_witness :
    1 ≤ (Pattern.mk regTxt false 3 "*.txt").LineNo ∧
    (Pattern.mk regTxt false 3 "*.txt").LineNo ≤
      (["", "# comment", "*.txt"] : List String).length ∧
    ((["", "# comment", "*.txt"] :
        List String)[(Pattern.mk regTxt false 3 "*.txt").LineNo - 1]?).map goTrimLine =
      some (Pattern.mk regTxt false 3 "*.txt").Line ∧
    getPatternFromLine (Pattern.mk regTxt false 3 "*.txt").Line =
      Except.ok (some (Pattern.mk regTxt false 3 "*.txt").Pattern,
        (Pattern.mk regTxt false 3 "*.txt").Negate) :=
  claim_C6_amended ["", "# comment", "*.txt"] ⟨[⟨regTxt, false, 3, "*.txt"⟩]⟩ rfl
    (Pattern.mk regTxt false 3 "*.txt") (List.mem_singleton.mpr rfl)

/-- Claim C7 (question-mark wildcard): the translation leaves no `?` in any
compiled expression (every one becomes `[^/]`, exactly one non-`/`
character), and `test?.txt` matches `test1.txt` but neither `test.txt` nor
`test12.txt`. -/
theorem claim_C7_question_mark_wildcard (B : List Char) :
    (buildExpr B).contains '?' = false ∧
    (CompileFilterPatterns ["test?.txt"]).map (fun f => f.MatchesPath "test1.txt") =
      Except.ok true ∧
    (CompileFilterPatterns ["test?.txt"]).map (fun f => f.MatchesPath "test.txt") =
      Except.ok false ∧
    (CompileFilterPatterns ["test?.txt"]).map (fun f => f.MatchesPath "test12.txt") =
      Except.ok false := by
  refine ⟨?_, by rfl, by rfl, by rfl⟩
  simpa using qmark_not_mem_buildExpr B

/-- Counterexample to C8: the claim says patterns `["logs/"]` give verdict
`true` for the directory path `logs` itself, but the compiled expression
`^logs/(|.*)$` requires the trailing slash, so `MatchesPath "logs"` is
`false`. -/
theorem claim_C8_counterexample :
    (CompileFilterPatterns ["logs/"]).map (fun f => f.MatchesPath "logs") =
      Except.ok false := by rfl

/-- Amended C8: a pattern ending in `/` gets the tail `(|.*)$`, so it
matches everything beneath the directory and the directory path written with
its trailing slash (`logs/`), but not the bare directory name `logs`. -/
theorem claim_C8_amended (B e : List Char) (h : List.isSuffixOf ['/'] B = true) :
    addTail B e = e ++ "(|.*)$".data ∧
    (CompileFilterPatterns ["logs/"]).map (fun f => f.MatchesPath "logs/debug.log") =
      Except.ok true ∧
    (CompileFilterPatterns ["logs/"]).map (fun f => f.MatchesPath "logs/") =
      Except.ok true ∧
    (CompileFilterPatterns ["logs/"]).map (fun f => f.MatchesPath "logs") =
      Except.ok false := by
  refine ⟨?_, by rfl, by rfl, by rfl⟩
  rw [addTail, if_pos h]

/-- Witness for C8 (amended) at the directory-only pattern `logs/`. -/
theorem claim_C8_witness :
    addTail "logs/".data "x".data = "x".data ++ "(|.*)$".data ∧
    (CompileFilterPatterns ["logs/"]).map (fun f => f.MatchesPath "logs/debug.log") =
      Except.ok true ∧
    (CompileFilterPatterns ["logs/"]).map (fun f => f.MatchesPath "logs/") =
      Except.ok true ∧
    (CompileFilterPatterns ["logs/"]).map (fun f => f.MatchesPath "logs") =
      Except.ok false :=
  claim_C8_amended "logs/".data "x".data rfl

/-- Counterexample to C9: the claim says `CompileFilterPatternFileAndLines`
errs exactly on read failures and never panics, but a readable file whose
content is a single `!` makes the compilation panic (the C3 crash), which is
neither of the claimed outcomes. -/
theorem claim_C9_counterexample :
    CompileFilterPatternFileAndLines (fun _ => some "!") "patterns.txt" [] =
      Except.error CompileOutcome.panicked := by rfl

/-- Amended C9: the function returns a file error exactly when the read
fails; when the read succeeds it agrees with `CompileFilterPatterns` on the
file's lines (split on line feed) followed by the extra lines — including
the possibility of the C3 panic — and an appended extra line wins ties under
last-match-wins. -/
theorem claim_C9_amended (fs : String → Option String) (path : String)
    (lines : List String) :
    (CompileFilterPatternFileAndLines fs path lines =
        Except.error CompileOutcome.fileError ↔ fs path = none) ∧
    (∀ bs f, fs path = some bs →
      (CompileFilterPatternFileAndLines fs path lines = Except.ok f ↔
        CompileFilterPatterns (splitOnNl bs ++ lines) = Except.ok f)) ∧
    (∀ bs L X p rx neg f, fs path = some bs → lines = L ++ [X] →
      CompileFilterPatternFileAndLines fs path lines = Except.ok f →
      getPatternFromLine (goTrimLine X) = Except.ok (some rx, neg) →
      rx.matchString (filepathToSlash p) = true →
      f.MatchesPath p = !neg) := by
  refine ⟨?_, ?_, ?_⟩
  · rcases hfs : fs path with _ | bs
    · simp [CompileFilterPatternFileAndLines, hfs]
    · rcases hcp : CompileFilterPatterns (splitOnNl bs ++ lines) with _ | g
      · simp [CompileFilterPatternFileAndLines, hfs, hcp]
      · simp [CompileFilterPatternFileAndLines, hfs, hcp]
  · intro bs f hbs
    rcases hcp : CompileFilterPatterns (splitOnNl bs ++ lines) with _ | g
    · simp [CompileFilterPatternFileAndLines, hbs, hcp]
    · simp [CompileFilterPatternFileAndLines, hbs, hcp]
  · intro bs L X p rx neg f hbs hlines hok hX hm
    subst hlines
    rcases hcp : CompileFilterPatterns (splitOnNl bs ++ (L ++ [X])) with _ | g
    · simp only [CompileFilterPatternFileAndLines, hbs, hcp] at hok
      exact absurd hok (by simp)
    · simp only [CompileFilterPatternFileAndLines, hbs, hcp, Except.ok.injEq] at hok
      subst hok
      rw [← List.append_assoc] at hcp
      exact matchesPath_compile_append _ X p rx neg g hX hm hcp

/-- Witness for C9 (amended): with file content `x` and extra line `a`, the
extra line decides path `a`. -/
theorem claim_C9_witness :
    Filter.MatchesPath ⟨[⟨regX, false, 1, "x"⟩, ⟨regA, false, 2, "a"⟩]⟩ "a" = !false :=
  (claim_C9_amended (fun _ => some "x") "f" ["a"]).2.2 "x" [] "a" "a" regA false
    ⟨[⟨regX, false, 1, "x"⟩, ⟨regA, false, 2, "a"⟩]⟩ rfl rfl rfl rfl rfl

/-- Claim C10 (matcher immutability under bulk inversion): `NegateAll` keeps
every pattern's compiled matcher and line number, flips every negation flag,
rewrites each line text by toggling a leading `!`, leaves each pattern's
match set unchanged on every path, and applying it twice restores every
verdict. -/
theorem claim_C10_negate_all (f : Filter) :
    f.NegateAll.patterns.map Pattern.Pattern = f.patterns.map Pattern.Pattern ∧
    f.NegateAll.patterns.map Pattern.LineNo = f.patterns.map Pattern.LineNo ∧
    f.NegateAll.patterns.map Pattern.Negate = f.patterns.map (fun p => !p.Negate) ∧
    f.NegateAll.patterns.map Pattern.Line = f.patterns.map (fun p => toggleBang p.Line) ∧
    (∀ path, f.NegateAll.patterns.map
        (fun p => p.Pattern.matchString (filepathToSlash path)) =
      f.patterns.map (fun p => p.Pattern.matchString (filepathToSlash path))) ∧
    ∀ path, f.NegateAll.NegateAll.MatchesPath path = f.MatchesPath path := by
  refine ⟨?_, ?_, ?_, ?_, ?_, ?_⟩
  · simp [Filter.NegateAll, Function.comp]
  · simp [Filter.NegateAll, Function.comp]
  · simp [Filter.NegateAll, Function.comp]
  · simp [Filter.NegateAll, Function.comp]
  · intro path
    simp [Filter.NegateAll, Function.comp]
  · intro path
    show (f.NegateAll.NegateAll.patterns.foldl
        (matchStep (filepathToSlash path)) (false, none)).1 =
      (f.patterns.foldl (matchStep (filepathToSlash path)) (false, none)).1
    apply foldl_matchStep_fst_congr
    simp [Filter.NegateAll, Function.comp]

end Amalgo
